import Mathlib

/-!
Verification of the tasq markdown task tracker (parser, identifier
allocator, task locator, status mutator) against its specification.

Strings are modelled as `List Char`.  JavaScript string operations are
embedded as follows:
* `String.prototype.trim` / the regex class `\s` are modelled by
  `isJsWhite` (the ECMAScript WhiteSpace and LineTerminator code points);
* `String.prototype.toLowerCase` is modelled character-wise by
  `Char.toLower` (exact on ASCII, which is all the disambiguation and
  section logic of the source relies on);
* `content.split('\n')` and `lines.join('\n')` are `splitLines` and
  `joinLines`.
-/

set_option maxRecDepth 8000

namespace Tasq

/-- Whitespace recognized by JavaScript `trim` and the regex class `\s`:
TAB..CR, space, NBSP, and the Unicode space separators. -/
def isJsWhite (c : Char) : Bool :=
  let n := c.toNat
  (9 ≤ n && n ≤ 13) || n = 32 || n = 160 || n = 0x1680 ||
  (0x2000 ≤ n && n ≤ 0x200A) || n = 0x2028 || n = 0x2029 ||
  n = 0x202F || n = 0x205F || n = 0x3000 || n = 0xFEFF

/-- Remove trailing JS whitespace. -/
def trimEnd (l : List Char) : List Char :=
  (l.reverse.dropWhile isJsWhite).reverse

/-- JavaScript `String.prototype.trim`: strip leading and trailing
whitespace. -/
def jsTrim (l : List Char) : List Char :=
  trimEnd (l.dropWhile isJsWhite)

/-- JavaScript `s.split(sep)` for a one-character separator: always
returns at least one (possibly empty) piece. -/
def splitOnChar (sep : Char) : List Char → List (List Char)
  | [] => [[]]
  | c :: rest =>
    match splitOnChar sep rest with
    | [] => [[]]
    | l :: ls => if c = sep then [] :: l :: ls else (c :: l) :: ls

/-- The source's `content.split('\n')`. -/
def splitLines (s : List Char) : List (List Char) := splitOnChar '\n' s

/-- The source's `lines.join('\n')`. -/
def joinLines : List (List Char) → List Char
  | [] => []
  | [l] => l
  | l :: l2 :: ls => l ++ '\n' :: joinLines (l2 :: ls)

theorem splitOnChar_ne_nil (sep : Char) (s : List Char) :
    splitOnChar sep s ≠ [] := by
  cases s with
  | nil => simp [splitOnChar]
  | cons c rest =>
    intro hcon
    rw [splitOnChar] at hcon
    rcases h : splitOnChar sep rest with _ | ⟨l, ls⟩ <;> rw [h] at hcon
    · simp at hcon
    · split at hcon
      · simp at hcon
      · split at hcon <;> simp at hcon

/-- Joining the split of a string on newline restores the string. -/
theorem joinLines_splitLines (s : List Char) :
    joinLines (splitLines s) = s := by
  induction s with
  | nil => rfl
  | cons c rest ih =>
    simp only [splitLines] at *
    rw [splitOnChar]
    cases h : splitOnChar '\n' rest with
    | nil => exact absurd h (splitOnChar_ne_nil '\n' rest)
    | cons l ls =>
      rw [h] at ih
      by_cases hc : c = '\n'
      · subst hc
        cases ls <;> simp_all [joinLines]
      · cases ls <;> simp_all [joinLines]

/-- Task status, from `types.ts` (`'pending' | 'in-progress' |
'completed'`). -/
inductive TaskStatus where
  | pending
  | inProgress
  | completed
deriving DecidableEq, Repr

/-- One checkbox task, from the `Task` interface in `types.ts`
(`goal` and `id` are unused by the verified components and omitted;
`section` is named `sectionName` because `section` is a Lean keyword). -/
structure Task where
  line : Nat
  status : TaskStatus
  description : List Char
  sectionName : Option (List Char)
deriving DecidableEq, Repr

/-- Parse result, from the `ParsedTasks` interface in `types.ts`. -/
structure ParsedTasks where
  name : List Char
  description : List Char
  notes : List Char
  goals : List Task
  tasks : List Task
  lines : List (List Char)
deriving DecidableEq, Repr

/-- The `ContextSection` interface in `types.ts`. -/
structure ContextSection where
  files : List (List Char)
  repos : List (List Char)
deriving DecidableEq, Repr

/-- The `STATUS_MAP` of `types.ts`, built from `STATUS_CONFIG`: chars
`''` and `' '` map to pending, `'~'` to in-progress, `'x'` and `'X'`
to completed. -/
def STATUS_MAP (s : List Char) : Option TaskStatus :=
  if s = [] then some .pending
  else if s = [' '] then some .pending
  else if s = ['~'] then some .inProgress
  else if s = ['x'] then some .completed
  else if s = ['X'] then some .completed
  else none

/-- The `STATUS_MARKERS` of `types.ts`: the bracketed marker written
back by the mutator. -/
def STATUS_MARKERS : TaskStatus → List Char
  | .pending => "[ ]".toList
  | .inProgress => "[~]".toList
  | .completed => "[x]".toList

/-- The regex match of `parseTasks`:
matching the anchored pattern dash, optional whitespace, an open
bracket, an optional character of the class x tilde space, a close
bracket, then the rest of the line.  Returns the captured marker string
(group 1, possibly empty) and the text following the close bracket. -/
def matchCheckbox (l : List Char) : Option (List Char × List Char) :=
  match l with
  | [] => none
  | d :: r =>
    if d = '-' then
      match r.dropWhile isJsWhite with
      | [] => none
      | b :: r1 =>
        if b = '[' then
          match r1 with
          | [] => none
          | c :: rest =>
            if c = 'x' ∨ c = '~' ∨ c = ' ' then
              match rest with
              | [] => none
              | c2 :: rest2 => if c2 = ']' then some ([c], rest2) else none
            else if c = ']' then some ([], rest)
            else none
        else none
    else none

/-- The synthetic section value the source assigns on a level-1
heading (`currentSection = 'header'`). -/
def headerTag : List Char := "header".toList

/-- The `tasks` section name. -/
def tasksTag : List Char := "tasks".toList

/-- The `goals` section name. -/
def goalsTag : List Char := "goals".toList

/-- Mutable state of the `parseTasks` line loop in `parser.ts`:
the accumulating result fields plus `currentSection`, `inTasks`,
`foundFirstTaskInSection` and `inCodeBlock`. -/
structure PTState where
  name : List Char
  description : List Char
  notes : List Char
  goals : List Task
  tasks : List Task
  currentSection : Option (List Char)
  inTasks : Bool
  foundFirstTaskInSection : Bool
  inCodeBlock : Bool
deriving DecidableEq, Repr

/-- Initial loop state of `parseTasks`. -/
def initState : PTState :=
  ⟨[], [], [], [], [], none, false, false, false⟩

/-- One iteration of the `parseTasks` loop for line `line` at index
`i`, transcribed branch by branch from `parser.ts`. -/
def parseStep (st : PTState) (i : Nat) (line : List Char) : PTState :=
  let trimmed := jsTrim line
  if "```".toList.isPrefixOf trimmed then
    { st with inCodeBlock := !st.inCodeBlock }
  else if st.inCodeBlock then st
  else if "# ".toList.isPrefixOf trimmed then
    { st with name := (trimmed.drop 1).dropWhile isJsWhite,
              currentSection := some headerTag }
  else if "## ".toList.isPrefixOf trimmed then
    let sec := ((trimmed.drop 2).dropWhile isJsWhite).map Char.toLower
    { st with currentSection := some sec,
              inTasks := sec = tasksTag,
              foundFirstTaskInSection := false }
  else if "- ".toList.isPrefixOf trimmed then
    match matchCheckbox trimmed with
    | some (marker, rest) =>
      let status := (STATUS_MAP marker).getD .pending
      let description := jsTrim (rest.dropWhile isJsWhite)
      let sectionName :=
        if st.currentSection = some headerTag ∨ st.currentSection = none
        then none else st.currentSection
      let task : Task := ⟨i, status, description, sectionName⟩
      { st with foundFirstTaskInSection := true,
                goals := if st.currentSection = some goalsTag
                         then st.goals ++ [task] else st.goals,
                tasks := st.tasks ++ [task] }
    | none => st
  else if st.currentSection = some headerTag ∧ line ≠ [] ∧
          ¬ ['#'].isPrefixOf line ∧ ¬ ['-'].isPrefixOf trimmed then
    { st with description :=
        st.description ++ (if st.description = [] then [] else ['\n']) ++ line }
  else if st.inTasks ∧ ¬ st.foundFirstTaskInSection ∧ line ≠ [] ∧
          ¬ ['#'].isPrefixOf line ∧ ¬ ['-'].isPrefixOf trimmed then
    { st with notes :=
        st.notes ++ (if st.notes = [] then [] else ['\n']) ++ line }
  else st

/-- The `parseTasks` loop over the lines, carrying the index. -/
def parseLoop (st : PTState) (i : Nat) : List (List Char) → PTState
  | [] => st
  | l :: ls => parseLoop (parseStep st i l) (i + 1) ls

/-- The `parseTasks` of `parser.ts` (the code-fence-aware variant):
split into lines, run the line loop, package the result together with
the verbatim line array. -/
def parseTasks (content : List Char) : ParsedTasks :=
  let lines := splitLines content
  let st := parseLoop initState 0 lines
  ⟨st.name, st.description, st.notes, st.goals, st.tasks, lines⟩

example :
    (parseTasks ("# My Project\nThis is a description\nSecond line\n\n## Context\nfiles: src/foo.ts, src/bar.ts\nrepos: github.com/foo, github.com/bar\n\n## Goals\n- [ ] Goal one\n- [x] Goal two completed\n\n## Tasks\nSome notes here\n- [ ] Pending task\n- [~] In-progress task\n- [x] Completed task\n").toList).tasks.map
      (fun t => (t.line, t.status)) =
    [(9, .pending), (10, .completed), (14, .pending), (15, .inProgress),
     (16, .completed)] := by decide

example :
    (parseTasks ("# My Project\nThis is a description\nSecond line\n").toList).description =
    "This is a description\nSecond line".toList := by decide

example :
    (parseTasks ("# T\n## Goals\n- [ ] G1\n## Tasks\n- [x] K1").toList).goals =
    [⟨2, .pending, "G1".toList, some goalsTag⟩] := by decide

example :
    (parseTasks ("## Tasks\nSome notes here\n- [ ] a\n").toList).notes =
    "Some notes here".toList := by decide

example :
    (parseTasks ("```\n## Tasks\n- [ ] hidden\n```\n- [x] seen").toList).tasks =
    [⟨4, .completed, "seen".toList, none⟩] := by decide

/-- Comma-split, trim and drop empty entries, as in the source's
`.split(',').map(s => s.trim()).filter(Boolean)`. -/
def splitCommaList (s : List Char) : List (List Char) :=
  ((splitOnChar ',' s).map jsTrim).filter (· ≠ [])

/-- State of the `parseContextSection` loop. -/
structure CtxState where
  files : List (List Char)
  repos : List (List Char)
  inContext : Bool
deriving DecidableEq, Repr

/-- One iteration of the `parseContextSection` loop of `parser.ts`. -/
def ctxStep (st : CtxState) (line : List Char) : CtxState :=
  let trimmed := jsTrim line
  if trimmed.map Char.toLower = "## context".toList then
    { st with inContext := true }
  else if "## ".toList.isPrefixOf trimmed then
    { st with inContext := false }
  else if !st.inContext then st
  else
    let st1 :=
      if "files:".toList.isPrefixOf (trimmed.map Char.toLower) then
        { st with files := st.files ++ splitCommaList (trimmed.drop 6) }
      else st
    if "repos:".toList.isPrefixOf (trimmed.map Char.toLower) then
      { st1 with repos := st1.repos ++ splitCommaList (trimmed.drop 6) }
    else st1

/-- The `parseContextSection` of `parser.ts`: collect `files:` and
`repos:` lines between a `## context` heading and the next level-2
heading.  It has no code-fence handling. -/
def parseContextSection (content : List Char) : ContextSection :=
  let st := (splitLines content).foldl ctxStep ⟨[], [], false⟩
  ⟨st.files, st.repos⟩

example :
    parseContextSection ("## Context\nfiles: src/foo.ts, src/bar.ts\nrepos: github.com/foo\n\n## Goals\nfiles: no.ts").toList =
    ⟨["src/foo.ts".toList, "src/bar.ts".toList], ["github.com/foo".toList]⟩ := by
  decide

/-- Candidate search of `generateRepoIds`: starting from prefix length
`len` of the case-folded name `low`, extend while the candidate is
already used.  The source's `while` loop recomputes
`name.toLowerCase().slice(0, len)` each round; since `slice` clamps at
the name's length the candidate stops changing once `len` exceeds it,
so the loop either succeeds within `name.length + 1` rounds or never
terminates.  `none` models the nonterminating loop. -/
def allocGo (used : List (List Char)) (low : List Char) :
    Nat → Nat → Option (List Char)
  | _, 0 => none
  | len, fuel + 1 =>
    let id := low.take len
    if id ∈ used then allocGo used low (len + 1) fuel else some id

/-- Loop of `generateRepoIds` over the names, accumulating the
insertion-ordered map (as an association list, mirroring JS `Map`
iteration order) and the set of used ids. -/
def generateRepoIdsGo (used : List (List Char))
    (acc : List (List Char × List Char)) :
    List (List Char) → Option (List (List Char × List Char))
  | [] => some acc
  | name :: rest =>
    let low := name.map Char.toLower
    match allocGo used low 1 (name.length + 1) with
    | none => none
    | some id => generateRepoIdsGo (id :: used) (acc ++ [(name, id)]) rest

/-- The `generateRepoIds` of `parser.ts`.  `name.charAt(0).toLowerCase()`
is modelled as the length-1 prefix of the case-folded name (both are
the empty string for an empty name).  `none` models the case where the
source's `while` loop never terminates. -/
def generateRepoIds (projectNames : List (List Char)) :
    Option (List (List Char × List Char)) :=
  generateRepoIdsGo [] [] projectNames

example :
    generateRepoIds ["foo".toList, "foobar".toList, "foobaz".toList] =
    some [("foo".toList, "f".toList), ("foobar".toList, "fo".toList),
          ("foobaz".toList, "foo".toList)] := by decide

example :
    generateRepoIds ["Foo".toList, "foo".toList] =
    some [("Foo".toList, "f".toList), ("foo".toList, "fo".toList)] := by decide

example : generateRepoIds ["ab".toList, "a".toList] = none := by decide

/-- The anchored regex of `updateTaskStatus` applied to the raw line:
dash, optional whitespace, bracket, optional marker character of the
class x tilde space, close bracket.  Returns the whitespace run, the
captured marker and the rest of the line after the close bracket. -/
def matchStatusRegion (l : List Char) :
    Option (List Char × List Char × List Char) :=
  match l with
  | [] => none
  | d :: r =>
    if d = '-' then
      match r.dropWhile isJsWhite with
      | [] => none
      | b :: r1 =>
        if b = '[' then
          match r1 with
          | [] => none
          | c :: rest =>
            if c = 'x' ∨ c = '~' ∨ c = ' ' then
              match rest with
              | [] => none
              | c2 :: rest2 =>
                if c2 = ']' then some (r.takeWhile isJsWhite, [c], rest2)
                else none
            else if c = ']' then some (r.takeWhile isJsWhite, [], rest)
            else none
        else none
    else none

/-- The `line.replace` of `updateTaskStatus`: if the anchored regex
matches, the matched region is replaced by a dash, a space and the
marker of the new status; otherwise the line is returned unchanged. -/
def replaceStatusMarker (line : List Char) (status : TaskStatus) : List Char :=
  match matchStatusRegion line with
  | some (_, _, rest) => "- ".toList ++ STATUS_MARKERS status ++ rest
  | none => line

/-- The `updateTaskStatus` of `core.ts`, on the file's content: read
and parse, index into the line array, rewrite the line, and return the
content written back (`lines.join('\n')`).  `none` models the thrown
`TypeError` when `parsed.lines[lineIndex]` is `undefined` (index out of
range), which happens before `writeTasks` runs. -/
def updateTaskStatus (content : List Char) (lineIndex : Nat)
    (status : TaskStatus) : Option (List Char) :=
  let parsed := parseTasks content
  match parsed.lines[lineIndex]? with
  | none => none
  | some line =>
    some (joinLines (parsed.lines.set lineIndex (replaceStatusMarker line status)))

example :
    updateTaskStatus ("## Tasks\n- [ ] a\n- [x] b").toList 1 .completed =
    some ("## Tasks\n- [x] a\n- [x] b").toList := by decide

example :
    updateTaskStatus ("## Tasks\n- [ ] a").toList 7 .completed = none := by
  decide

/-- One scanned project as consumed by `findTaskAcrossProjects`: its
assigned repo id and its task list (already annotated with compact
ids by `scanAllTasksWithIds`; the annotation itself is irrelevant to
lookup). -/
structure ScanResult where
  repoId : List Char
  tasks : List Task
deriving DecidableEq, Repr

/-- Numeric value of a digit string, as `parseInt(s, 10)` on a string
of digits. -/
def digitsToNat (ds : List Char) : Nat :=
  ds.foldl (fun n c => n * 10 + (c.toNat - '0'.toNat)) 0

/-- The compact-id regex of `findTaskAcrossProjects`, anchored at both
ends: one or more lowercase letters followed by one or more digits.
Returns the letter and digit groups. -/
def compactParse (idf : List Char) : Option (List Char × List Char) :=
  let letters := idf.takeWhile (fun c => 'a' ≤ c ∧ c ≤ 'z')
  let digits := idf.drop letters.length
  if letters ≠ [] ∧ digits ≠ [] ∧ digits.all Char.isDigit then
    some (letters, digits)
  else none

/-- First loop of `findTaskAcrossProjects`: scan the results for the
first project whose repo id equals the letter group and whose task
list covers the 1-based task number `n`. -/
def compactLoop (rid : List Char) (n : Nat) :
    List ScanResult → Option (ScanResult × Task)
  | [] => none
  | r :: rest =>
    if r.repoId = rid ∧ 1 ≤ n ∧ n - 1 < r.tasks.length then
      match r.tasks[n - 1]? with
      | some t => some (r, t)
      | none => none
    else compactLoop rid n rest

/-- JavaScript `haystack.includes(needle)`: `needle` occurs as a
contiguous substring of `haystack` (the empty string always does). -/
def includes (hay sub : List Char) : Bool :=
  if sub.isPrefixOf hay then true
  else
    match hay with
    | [] => false
    | _ :: t => includes t sub

/-- Fallback loop of `findTaskAcrossProjects`: first project (in scan
order) containing a task whose case-folded description contains the
case-folded identifier as a substring. -/
def substrFind (idf : List Char) :
    List ScanResult → Option (ScanResult × Task)
  | [] => none
  | r :: rest =>
    match r.tasks.find? (fun t =>
        includes (t.description.map Char.toLower) (idf.map Char.toLower)) with
    | some t => some (r, t)
    | none => substrFind idf rest

/-- The `findTaskAcrossProjects` of `core.ts`, over an already scanned
result list: try the compact-id format, then fall back to substring
search. -/
def findTaskAcrossProjects (identifier : List Char)
    (results : List ScanResult) : Option (ScanResult × Task) :=
  match compactParse identifier with
  | some (rid, ds) =>
    match compactLoop rid (digitsToNat ds) results with
    | some rt => some rt
    | none => substrFind identifier results
  | none => substrFind identifier results

example :
    findTaskAcrossProjects "p2".toList
      [⟨"c".toList, [⟨0, .pending, "x".toList, none⟩]⟩,
       ⟨"p".toList, [⟨0, .pending, "a".toList, none⟩,
                     ⟨1, .completed, "b".toList, none⟩]⟩] =
    some (⟨"p".toList, [⟨0, .pending, "a".toList, none⟩,
                        ⟨1, .completed, "b".toList, none⟩]⟩,
          ⟨1, .completed, "b".toList, none⟩) := by decide

example :
    findTaskAcrossProjects "Fix".toList
      [⟨"p".toList, [⟨0, .pending, "will fix later".toList, none⟩]⟩] =
    some (⟨"p".toList, [⟨0, .pending, "will fix later".toList, none⟩]⟩,
          ⟨0, .pending, "will fix later".toList, none⟩) := by decide

example :
    findTaskAcrossProjects "zz9".toList
      [⟨"p".toList, [⟨0, .pending, "a".toList, none⟩]⟩] = none := by decide

theorem goalsTag_ne_headerTag : goalsTag ≠ headerTag := by decide

theorem parseLoop_goals_filter (ls : List (List Char)) :
    ∀ (st : PTState) (i : Nat),
    st.goals = st.tasks.filter (fun t => decide (t.sectionName = some goalsTag)) →
    (parseLoop st i ls).goals =
      (parseLoop st i ls).tasks.filter
        (fun t => decide (t.sectionName = some goalsTag)) := by
  induction ls with
  | nil => intro st i h; exact h
  | cons l ls ih =>
    intro st i h
    refine ih (parseStep st i l) (i + 1) ?_
    unfold parseStep
    simp only []
    rcases hm : matchCheckbox (jsTrim l) with _ | ⟨marker, rest⟩ <;>
        simp only [hm] <;> split_ifs <;>
      first
        | exact h
        | simp_all [List.filter_append, List.filter_cons,
            goalsTag_ne_headerTag, Option.some.injEq]

/-- C9: the goals list of a parse result is exactly the subsequence of
its tasks list whose section is `goals`, in the same relative order. -/
theorem goals_is_filtered_view (content : List Char) :
    (parseTasks content).goals =
      (parseTasks content).tasks.filter
        (fun t => decide (t.sectionName = some goalsTag)) := by
  have h := parseLoop_goals_filter (splitLines content) initState 0 (by rfl)
  exact h

/-- C6: parsing, serializing the retained lines, and re-parsing yields
an identical parse result (tasks, title, description, notes, goals and
lines all equal). -/
theorem reparse_idempotent (content : List Char) :
    parseTasks (joinLines (parseTasks content).lines) = parseTasks content := by
  have h : (parseTasks content).lines = splitLines content := rfl
  rw [h, joinLines_splitLines]

/-- C2: a checkbox line with capital `X` is not recognized as a task at
all (the checkbox regex class omits `X`), although the code's own
`STATUS_MAP` maps `X` to completed and lowercase `x` yields a completed
task. -/
theorem capital_X_not_recognized :
    (parseTasks "- [X] done".toList).tasks = [] ∧
    STATUS_MAP ['X'] = some .completed ∧
    (parseTasks "- [x] done".toList).tasks.map Task.status = [.completed] := by
  decide

/-- C4: on the pairwise-distinct input `["ab", "a"]` the allocator's
candidate search exhausts the second name and the source's `while`
loop never terminates (modelled as `none`); no "cannot disambiguate"
error is raised. -/
theorem alloc_exhaustion_diverges :
    "ab".toList ≠ "a".toList ∧
    generateRepoIds ["ab".toList, "a".toList] = none := by decide

/-- C10: a line index at or beyond the number of lines of the file
makes `updateTaskStatus` fail (the indexing yields `undefined` and the
`replace` call throws) before anything is written, leaving the file
unchanged. -/
theorem out_of_range_update_fails (content : List Char) (idx : Nat)
    (status : TaskStatus) (h : (parseTasks content).lines.length ≤ idx) :
    updateTaskStatus content idx status = none := by
  unfold updateTaskStatus
  have hn : (parseTasks content).lines[idx]? = none :=
    List.getElem?_eq_none h
  simp only [hn]

theorem out_of_range_update_fails_witness :
    ("## Tasks\n- [ ] a".toList |> parseTasks).lines.length ≤ 5 ∧
    updateTaskStatus "## Tasks\n- [ ] a".toList 5 .completed = none :=
  ⟨by decide,
   out_of_range_update_fails "## Tasks\n- [ ] a".toList 5 .completed (by decide)⟩

/-- C7 (amended): in `parseTasks`, a line encountered while a code
fence is open and which is not itself a fence line has no effect at
all on the parse state: it sets no title, opens no section, is no
task, and contributes to no field. -/
theorem fence_suppresses_parseTasks (st : PTState) (i : Nat)
    (line : List Char) (hin : st.inCodeBlock = true)
    (hfence : "```".toList.isPrefixOf (jsTrim line) = false) :
    parseStep st i line = st := by
  unfold parseStep
  simp only [hfence, hin, Bool.false_eq_true, if_false, if_true]

theorem fence_suppresses_parseTasks_witness :
    ({ initState with inCodeBlock := true } : PTState).inCodeBlock = true ∧
    "```".toList.isPrefixOf (jsTrim "## Tasks".toList) = false ∧
    parseStep { initState with inCodeBlock := true } 0 "## Tasks".toList =
      { initState with inCodeBlock := true } :=
  ⟨rfl, by decide,
   fence_suppresses_parseTasks { initState with inCodeBlock := true } 0
     "## Tasks".toList rfl (by decide)⟩

/-- C7 counterexample: `parseContextSection` has no code-fence
handling, so a `files:` line lying between an opening and a closing
fence inside the context section still contributes an entry. -/
theorem fence_not_suppressed_in_context :
    parseContextSection "## Context\n```\nfiles: a\n```".toList =
      ⟨["a".toList], []⟩ := by decide

theorem allocGo_some (used : List (List Char)) (low : List Char) :
    ∀ fuel len id, allocGo used low len fuel = some id →
      id ∉ used ∧ ∃ k, id = low.take k := by
  intro fuel
  induction fuel with
  | zero => intro len id h; simp [allocGo] at h
  | succ fuel ih =>
    intro len id h
    simp only [allocGo] at h
    split at h
    · exact ih (len + 1) id h
    · rename_i hniu
      cases h
      exact ⟨hniu, len, rfl⟩

theorem generateRepoIdsGo_spec (names : List (List Char)) :
    ∀ (used : List (List Char)) (acc m : List (List Char × List Char)),
      generateRepoIdsGo used acc names = some m →
      (∀ p ∈ acc, p.2 ∈ used) →
      (acc.map Prod.snd).Pairwise (· ≠ ·) →
      (∀ p ∈ acc, p.2 <+: p.1.map Char.toLower) →
      m.map Prod.fst = acc.map Prod.fst ++ names ∧
      (m.map Prod.snd).Pairwise (· ≠ ·) ∧
      ∀ p ∈ m, p.2 <+: p.1.map Char.toLower := by
  induction names with
  | nil =>
    intro used acc m h hused hpw hpre
    rw [generateRepoIdsGo] at h
    cases h
    exact ⟨by simp, hpw, hpre⟩
  | cons n rest ih =>
    intro used acc m h hused hpw hpre
    simp only [generateRepoIdsGo] at h
    rcases ha : allocGo used (n.map Char.toLower) 1 (n.length + 1) with _ | id
    · rw [ha] at h; cases h
    · rw [ha] at h
      obtain ⟨hniu, k, hk⟩ := allocGo_some used (n.map Char.toLower) _ _ _ ha
      have hres := ih (id :: used) (acc ++ [(n, id)]) m h ?_ ?_ ?_
      · refine ⟨?_, hres.2.1, hres.2.2⟩
        rw [hres.1]
        simp
      · intro p hp
        rcases List.mem_append.mp hp with hp1 | hp2
        · exact List.mem_cons_of_mem _ (hused p hp1)
        · simp at hp2
          subst hp2
          simp
      · rw [List.map_append]
        rw [List.pairwise_append]
        refine ⟨hpw, by simp, ?_⟩
        intro a hax b hbx
        simp at hbx
        rw [hbx]
        rcases List.mem_map.mp hax with ⟨p, hp, rfl⟩
        exact fun hcon => hniu (hcon ▸ hused p hp)
      · intro p hp
        rcases List.mem_append.mp hp with hp1 | hp2
        · exact hpre p hp1
        · simp at hp2
          subst hp2
          simpa [hk] using List.take_prefix k (n.map Char.toLower)

/-- C3 (amended): on every pairwise-distinct name list on which the
allocator terminates (equivalently, each name still has an unissued
case-folded prefix when its turn comes), `generateRepoIds` returns
exactly one entry per name in the given order, all issued identifiers
are pairwise distinct, and each identifier is a prefix of the
case-folded name.  Determinism and order-dependence are immediate:
the allocation is a pure function of the ordered list. -/
theorem alloc_unique_prefix (names : List (List Char))
    (m : List (List Char × List Char))
    (hdist : names.Pairwise (· ≠ ·))
    (h : generateRepoIds names = some m) :
    m.map Prod.fst = names ∧
    (m.map Prod.snd).Pairwise (· ≠ ·) ∧
    ∀ p ∈ m, p.2 <+: p.1.map Char.toLower := by
  have hres := generateRepoIdsGo_spec names [] [] m h
    (by simp) (by simp) (by simp)
  exact ⟨by simpa using hres.1, hres.2.1, hres.2.2⟩

theorem alloc_unique_prefix_witness :
    [("alpha".toList, "a".toList), ("apple".toList, "ap".toList),
     ("apricot".toList, "apr".toList)].map Prod.fst =
      ["alpha".toList, "apple".toList, "apricot".toList] ∧
    ([("alpha".toList, "a".toList), ("apple".toList, "ap".toList),
      ("apricot".toList, "apr".toList)].map Prod.snd).Pairwise (· ≠ ·) ∧
    ∀ p ∈ [("alpha".toList, "a".toList), ("apple".toList, "ap".toList),
           ("apricot".toList, "apr".toList)],
      p.2 <+: p.1.map Char.toLower :=
  alloc_unique_prefix
    ["alpha".toList, "apple".toList, "apricot".toList]
    [("alpha".toList, "a".toList), ("apple".toList, "ap".toList),
     ("apricot".toList, "apr".toList)]
    (by decide) (by decide)

/-- C3 counterexample: a pairwise-distinct name list on which
`generateRepoIds` produces no mapping at all (the source loops
forever), so the unamended universal claim fails. -/
theorem alloc_distinct_names_no_result :
    (["xy".toList, "x".toList].Pairwise (· ≠ ·)) ∧
    generateRepoIds ["xy".toList, "x".toList] = none := by decide

/-- The compact-id predicate of the locator's first loop. -/
def compactHit (rid : List Char) (n : Nat) (r : ScanResult) : Bool :=
  decide (r.repoId = rid ∧ 1 ≤ n ∧ n - 1 < r.tasks.length)

/-- The description predicate of the locator's fallback loop. -/
def descrHit (idf : List Char) (t : Task) : Bool :=
  includes (t.description.map Char.toLower) (idf.map Char.toLower)

theorem compactLoop_eq_find (rid : List Char) (n : Nat)
    (results : List ScanResult) :
    compactLoop rid n results =
      (results.find? (compactHit rid n)).bind
        (fun r => r.tasks[n - 1]?.map (fun t => (r, t))) := by
  induction results with
  | nil => rfl
  | cons r rest ih =>
    rw [compactLoop]
    by_cases hc : r.repoId = rid ∧ 1 ≤ n ∧ n - 1 < r.tasks.length
    · rw [if_pos hc, List.find?_cons_of_pos _ (by simpa [compactHit] using hc)]
      rcases hg : r.tasks[n - 1]? with _ | t
      · have hcontra := List.getElem?_eq_getElem hc.2.2
        rw [hg] at hcontra
        simp at hcontra
      · simp [hg]
    · rw [if_neg hc, List.find?_cons_of_neg _ (by simpa [compactHit] using hc)]
      exact ih

theorem substrFind_eq_findSome (idf : List Char)
    (results : List ScanResult) :
    substrFind idf results =
      results.findSome? (fun r =>
        (r.tasks.find? (descrHit idf)).map (fun t => (r, t))) := by
  induction results with
  | nil => rfl
  | cons r rest ih =>
    rw [substrFind, List.findSome?_cons]
    have hd : (fun t => includes (t.description.map Char.toLower)
        (idf.map Char.toLower)) = descrHit idf := rfl
    rw [hd]
    rcases hf : r.tasks.find? (descrHit idf) with _ | t
    · simpa using ih
    · simp

theorem find?_append_of_none {α : Type} (p : α → Bool) (pre l : List α)
    (hpre : ∀ q ∈ pre, p q = false) :
    List.find? p (pre ++ l) = List.find? p l := by
  induction pre with
  | nil => rfl
  | cons q qs ih =>
    rw [List.cons_append, List.find?_cons_of_neg _ (by simp [hpre q (by simp)])]
    exact ih fun q' hq' => hpre q' (by simp [hq'])

/-- C5: resolution order of the locator.  First conjunct: for every
identifier and result list, `findTaskAcrossProjects` equals the
specification expression: if the identifier has the compact shape,
return the task at the 1-based position inside the first project whose
repo id equals the letter group and whose task list covers the
position; otherwise (including when no project is in range) return the
first task, in scan order, whose case-folded description contains the
case-folded identifier, and `none` when neither applies.  Second
conjunct: in particular, for the first project with repo id `p` when it
has at least two tasks, identifier `p2` resolves to that project's
second task. -/
theorem locate_resolution :
    (∀ (idf : List Char) (results : List ScanResult),
      findTaskAcrossProjects idf results =
        match compactParse idf with
        | some (rid, ds) =>
          match (results.find? (compactHit rid (digitsToNat ds))).bind
              (fun r => r.tasks[digitsToNat ds - 1]?.map
                (fun t => (r, t))) with
          | some rt => some rt
          | none => results.findSome? (fun r =>
              (r.tasks.find? (descrHit idf)).map (fun t => (r, t)))
        | none => results.findSome? (fun r =>
            (r.tasks.find? (descrHit idf)).map (fun t => (r, t)))) ∧
    (∀ (results pre rest : List ScanResult) (r : ScanResult),
      results = pre ++ r :: rest →
      (∀ q ∈ pre, ¬ (q.repoId = "p".toList ∧ 1 < q.tasks.length)) →
      r.repoId = "p".toList → 2 ≤ r.tasks.length →
      findTaskAcrossProjects "p2".toList results =
        r.tasks[1]?.map (fun t => (r, t))) := by
  have main : ∀ (idf : List Char) (results : List ScanResult),
      findTaskAcrossProjects idf results =
        match compactParse idf with
        | some (rid, ds) =>
          match (results.find? (compactHit rid (digitsToNat ds))).bind
              (fun r => r.tasks[digitsToNat ds - 1]?.map
                (fun t => (r, t))) with
          | some rt => some rt
          | none => results.findSome? (fun r =>
              (r.tasks.find? (descrHit idf)).map (fun t => (r, t)))
        | none => results.findSome? (fun r =>
            (r.tasks.find? (descrHit idf)).map (fun t => (r, t))) := by
    intro idf results
    rw [findTaskAcrossProjects]
    rcases hc : compactParse idf with _ | ⟨rid, ds⟩ <;> simp only [hc]
    · exact substrFind_eq_findSome idf results
    · rw [compactLoop_eq_find]
      rcases hb : (results.find? (compactHit rid (digitsToNat ds))).bind
          (fun r => r.tasks[digitsToNat ds - 1]?.map
            (fun t => (r, t))) with _ | rt
      · exact substrFind_eq_findSome idf results
      · rfl
  refine ⟨main, ?_⟩
  intro results pre rest r hres hpre hrid hlen
  subst hres
  rw [main]
  have hcp : compactParse "p2".toList = some (['p'], ['2']) := by decide
  rw [hcp]
  have hn : digitsToNat ['2'] = 2 := by decide
  simp only [hn]
  have hfind : (pre ++ r :: rest).find? (compactHit ['p'] 2) = some r := by
    rw [find?_append_of_none _ pre _ ?_]
    · refine List.find?_cons_of_pos _ ?_
      simp only [compactHit, decide_eq_true_eq]
      refine ⟨by simpa using hrid, by norm_num, by omega⟩
    · intro q hq
      have hq' := hpre q hq
      simp only [compactHit, decide_eq_false_iff_not]
      rintro ⟨ha, hb, hc⟩
      exact hq' ⟨by simpa using ha, by omega⟩
  rw [hfind]
  rcases hg : r.tasks[1]? with _ | t
  · have hcontra := List.getElem?_eq_getElem (show 1 < r.tasks.length by omega)
    rw [hg] at hcontra
    simp at hcontra
  · simp [hg]

theorem locate_resolution_witness :
    findTaskAcrossProjects "p2".toList
      [⟨"p".toList, [⟨0, .pending, "a".toList, none⟩,
                     ⟨1, .completed, "b".toList, none⟩]⟩] =
      ([⟨0, .pending, "a".toList, none⟩,
         ⟨1, .completed, "b".toList, none⟩] : List Task)[1]?.map
        (fun t => (⟨"p".toList,
          [⟨0, TaskStatus.pending, "a".toList, none⟩,
           ⟨1, TaskStatus.completed, "b".toList, none⟩]⟩, t)) :=
  locate_resolution.2
    [⟨"p".toList, [⟨0, .pending, "a".toList, none⟩,
                   ⟨1, .completed, "b".toList, none⟩]⟩]
    [] []
    ⟨"p".toList, [⟨0, .pending, "a".toList, none⟩,
                  ⟨1, .completed, "b".toList, none⟩]⟩
    rfl (by simp) (by decide) (by decide)

/-- The task appended by one `parseTasks` iteration, when the line is
recognized as a checkbox task in the current state, `none` otherwise
(mirrors the branch structure of `parseStep`). -/
def pushedTask (st : PTState) (i : Nat) (line : List Char) : Option Task :=
  let trimmed := jsTrim line
  if "```".toList.isPrefixOf trimmed then none
  else if st.inCodeBlock then none
  else if "# ".toList.isPrefixOf trimmed then none
  else if "## ".toList.isPrefixOf trimmed then none
  else if "- ".toList.isPrefixOf trimmed then
    match matchCheckbox trimmed with
    | some (marker, rest) =>
      some ⟨i, (STATUS_MAP marker).getD .pending,
            jsTrim (rest.dropWhile isJsWhite),
            if st.currentSection = some headerTag ∨ st.currentSection = none
            then none else st.currentSection⟩
    | none => none
  else none

theorem parseStep_tasks (st : PTState) (i : Nat) (line : List Char) :
    (parseStep st i line).tasks = st.tasks ++ (pushedTask st i line).toList := by
  unfold parseStep pushedTask
  simp only []
  rcases hm : matchCheckbox (jsTrim line) with _ | ⟨marker, rest⟩ <;>
    simp only [hm] <;> split_ifs <;> simp

theorem pushedTask_some (st : PTState) (i : Nat) (line : List Char)
    (t : Task) (h : pushedTask st i line = some t) :
    t.line = i ∧ st.inCodeBlock = false ∧
    ∃ marker rest, matchCheckbox (jsTrim line) = some (marker, rest) ∧
      t.status = (STATUS_MAP marker).getD .pending ∧
      t.description = jsTrim (rest.dropWhile isJsWhite) := by
  unfold pushedTask at h
  simp only [] at h
  by_cases h1 : "```".toList.isPrefixOf (jsTrim line) = true
  · rw [if_pos h1] at h; cases h
  rw [if_neg h1] at h
  by_cases h2 : st.inCodeBlock = true
  · rw [if_pos h2] at h; cases h
  rw [if_neg h2] at h
  by_cases h3 : "# ".toList.isPrefixOf (jsTrim line) = true
  · rw [if_pos h3] at h; cases h
  rw [if_neg h3] at h
  by_cases h4 : "## ".toList.isPrefixOf (jsTrim line) = true
  · rw [if_pos h4] at h; cases h
  rw [if_neg h4] at h
  by_cases h5 : "- ".toList.isPrefixOf (jsTrim line) = true
  case neg => rw [if_neg h5] at h; cases h
  rw [if_pos h5] at h
  rcases hm : matchCheckbox (jsTrim line) with _ | ⟨marker, rest⟩ <;> rw [hm] at h
  · exact Option.noConfusion h
  · have ht := (Option.some.inj h).symm
    subst ht
    exact ⟨rfl, by simpa using h2, marker, rest, rfl, rfl, rfl⟩

theorem parseLoop_append (xs : List (List Char)) :
    ∀ (st : PTState) (i : Nat) (ys : List (List Char)),
    parseLoop st i (xs ++ ys) =
      parseLoop (parseLoop st i xs) (i + xs.length) ys := by
  induction xs with
  | nil => intro st i ys; simp [parseLoop]
  | cons x xs ih =>
    intro st i ys
    show parseLoop (parseStep st i x) (i + 1) (xs ++ ys) =
      parseLoop (parseLoop (parseStep st i x) (i + 1) xs)
        (i + (x :: xs).length) ys
    rw [ih]
    congr 1
    simp
    omega

theorem parseLoop_tasks_extend (ls : List (List Char)) :
    ∀ (st : PTState) (i : Nat),
    ∃ suf, (parseLoop st i ls).tasks = st.tasks ++ suf := by
  induction ls with
  | nil => intro st i; exact ⟨[], by simp [parseLoop]⟩
  | cons l ls ih =>
    intro st i
    obtain ⟨suf, hsuf⟩ := ih (parseStep st i l) (i + 1)
    refine ⟨(pushedTask st i l).toList ++ suf, ?_⟩
    rw [parseLoop, hsuf, parseStep_tasks]
    simp

theorem mem_parseLoop_tasks (ls : List (List Char)) :
    ∀ (st : PTState) (i : Nat) (t : Task),
    t ∈ (parseLoop st i ls).tasks →
    t ∈ st.tasks ∨ ∃ k, k < ls.length ∧
      pushedTask (parseLoop st i (ls.take k)) (i + k) (ls.getD k []) = some t := by
  induction ls with
  | nil => intro st i t h; exact Or.inl h
  | cons l ls ih =>
    intro st i t h
    rw [parseLoop] at h
    rcases ih (parseStep st i l) (i + 1) t h with h1 | ⟨k, hk, hp⟩
    · rw [parseStep_tasks] at h1
      rcases List.mem_append.mp h1 with h2 | h2
      · exact Or.inl h2
      · refine Or.inr ⟨0, by simp, ?_⟩
        rcases hpp : pushedTask st i l with _ | t2
        · rw [hpp] at h2; simp at h2
        · rw [hpp] at h2
          simp at h2
          subst h2
          simpa [parseLoop] using hpp
    · refine Or.inr ⟨k + 1, by simpa using hk, ?_⟩
      have harith : i + (k + 1) = (i + 1) + k := by omega
      simpa [List.take_succ_cons, parseLoop, harith] using hp

theorem trimEnd_append (xs ys : List Char) :
    trimEnd (xs ++ ys) =
      if trimEnd ys = [] then trimEnd xs else xs ++ trimEnd ys := by
  unfold trimEnd
  rw [List.reverse_append, List.dropWhile_append]
  by_cases h : (ys.reverse.dropWhile isJsWhite).isEmpty = true
  · rw [if_pos h, if_pos]
    rw [List.isEmpty_iff] at h
    rw [h]
    rfl
  · rw [if_neg h, if_neg]
    · rw [List.reverse_append, List.reverse_reverse]
    · rw [List.isEmpty_iff] at h
      simp [h]

theorem trimEnd_concat_not_white (xs : List Char) (c : Char)
    (hc : isJsWhite c = false) : trimEnd (xs ++ [c]) = xs ++ [c] := by
  unfold trimEnd
  rw [List.reverse_append]
  simp only [List.reverse_cons, List.reverse_nil, List.nil_append,
    List.cons_append, List.dropWhile_cons, hc]
  simp

theorem dropWhile_white_append (w z : List Char)
    (hw : ∀ c ∈ w, isJsWhite c = true) :
    (w ++ z).dropWhile isJsWhite = z.dropWhile isJsWhite := by
  induction w with
  | nil => rfl
  | cons c cs ih =>
    rw [List.cons_append, List.dropWhile_cons, if_pos (hw c (by simp))]
    exact ih fun c2 hc2 => hw c2 (by simp [hc2])

theorem matchStatusRegion_cons (d : Char) (r : List Char) :
    matchStatusRegion (d :: r) =
      if d = '-' then
        match r.dropWhile isJsWhite with
        | [] => none
        | b :: r1 =>
          if b = '[' then
            match r1 with
            | [] => none
            | c :: rest =>
              if c = 'x' ∨ c = '~' ∨ c = ' ' then
                match rest with
                | [] => none
                | c2 :: rest2 =>
                  if c2 = ']' then some (r.takeWhile isJsWhite, [c], rest2)
                  else none
              else if c = ']' then some (r.takeWhile isJsWhite, [], rest)
              else none
          else none
      else none := rfl

theorem matchStatusRegion_some (l w mk rest : List Char)
    (h : matchStatusRegion l = some (w, mk, rest)) :
    l = '-' :: (w ++ '[' :: (mk ++ ']' :: rest)) ∧
    (∀ c ∈ w, isJsWhite c = true) ∧
    (mk = [] ∨ ∃ c, mk = [c] ∧ (c = 'x' ∨ c = '~' ∨ c = ' ')) := by
  rcases l with _ | ⟨d, r⟩
  · cases h
  rw [matchStatusRegion_cons] at h
  by_cases hd : d = '-'
  case neg => rw [if_neg hd] at h; cases h
  rw [if_pos hd] at h
  subst hd
  rcases hdw : r.dropWhile isJsWhite with _ | ⟨b, r1⟩
  · rw [hdw] at h; cases h
  rw [hdw] at h
  simp only [] at h
  by_cases hb : b = '['
  case neg => simp only [if_neg hb] at h; cases h
  simp only [if_pos hb] at h
  subst hb
  have hr : r = r.takeWhile isJsWhite ++ '[' :: r1 := by
    conv_lhs => rw [← List.takeWhile_append_dropWhile (p := isJsWhite) (l := r)]
    rw [hdw]
  have hwhite : ∀ c ∈ r.takeWhile isJsWhite, isJsWhite c = true :=
    fun c hc => List.mem_takeWhile_imp hc
  rcases r1 with _ | ⟨c, rest0⟩
  · cases h
  simp only [] at h
  by_cases hcls : c = 'x' ∨ c = '~' ∨ c = ' '
  · simp only [if_pos hcls] at h
    rcases rest0 with _ | ⟨c2, rest2⟩
    · cases h
    simp only [] at h
    by_cases hc2 : c2 = ']'
    case neg => simp only [if_neg hc2] at h; cases h
    simp only [if_pos hc2] at h
    subst hc2
    have hinj := Option.some.inj h
    have h1 : r.takeWhile isJsWhite = w := congrArg Prod.fst hinj
    have h2 : [c] = mk := congrArg (fun p => p.2.1) hinj
    have h3 : rest2 = rest := congrArg (fun p => p.2.2) hinj
    subst h1; subst h3
    rw [← h2]
    refine ⟨?_, hwhite, Or.inr ⟨c, rfl, hcls⟩⟩
    conv_lhs => rw [hr]
    simp
  · simp only [if_neg hcls] at h
    by_cases hcb : c = ']'
    case neg => simp only [if_neg hcb] at h; cases h
    simp only [if_pos hcb] at h
    subst hcb
    have hinj := Option.some.inj h
    have h1 : r.takeWhile isJsWhite = w := congrArg Prod.fst hinj
    have h2 : ([] : List Char) = mk := congrArg (fun p => p.2.1) hinj
    have h3 : rest0 = rest := congrArg (fun p => p.2.2) hinj
    subst h1; subst h3
    rw [← h2]
    refine ⟨?_, hwhite, Or.inl rfl⟩
    conv_lhs => rw [hr]
    simp

theorem jsTrim_of_region (l w mk rest : List Char)
    (h : matchStatusRegion l = some (w, mk, rest)) :
    jsTrim l = '-' :: (w ++ '[' :: (mk ++ ']' :: trimEnd rest)) := by
  obtain ⟨hl, hw, hmk⟩ := matchStatusRegion_some l w mk rest h
  have hdash : isJsWhite '-' = false := rfl
  have hstep1 : jsTrim l = trimEnd l := by
    unfold jsTrim
    rw [hl, List.dropWhile_cons, if_neg (by simp [hdash]), ← hl]
  rw [hstep1, hl]
  have hregroup : '-' :: (w ++ '[' :: (mk ++ ']' :: rest)) =
      (('-' :: w ++ '[' :: mk) ++ [']']) ++ rest := by simp
  rw [hregroup, trimEnd_append]
  have hpref : trimEnd (('-' :: w ++ '[' :: mk) ++ [']']) =
      ('-' :: w ++ '[' :: mk) ++ [']'] :=
    trimEnd_concat_not_white _ _ rfl
  by_cases hte : trimEnd rest = []
  · rw [if_pos hte, hpref, hte]
    simp
  · rw [if_neg hte]
    simp

theorem matchCheckbox_dash (R : List Char) :
    matchCheckbox ('-' :: R) =
      match R.dropWhile isJsWhite with
      | [] => none
      | b :: r1 =>
        if b = '[' then
          match r1 with
          | [] => none
          | c :: rest =>
            if c = 'x' ∨ c = '~' ∨ c = ' ' then
              match rest with
              | [] => none
              | c2 :: rest2 => if c2 = ']' then some ([c], rest2) else none
            else if c = ']' then some ([], rest)
            else none
        else none := rfl

theorem matchCheckbox_of_region (l w mk rest : List Char)
    (h : matchStatusRegion l = some (w, mk, rest)) :
    matchCheckbox (jsTrim l) = some (mk, trimEnd rest) := by
  obtain ⟨hl, hw, hmk⟩ := matchStatusRegion_some l w mk rest h
  rw [jsTrim_of_region l w mk rest h, matchCheckbox_dash]
  have hbr : isJsWhite '[' = false := rfl
  have hdw2 : (w ++ '[' :: (mk ++ ']' :: trimEnd rest)).dropWhile isJsWhite
      = '[' :: (mk ++ ']' :: trimEnd rest) := by
    rw [dropWhile_white_append w _ hw, List.dropWhile_cons,
      if_neg (by simp [hbr])]
  rw [hdw2]
  rcases hmk with rfl | ⟨c, rfl, hcls⟩
  · rfl
  · rcases hcls with rfl | rfl | rfl <;> rfl

theorem newline_not_mem_splitLines (s : List Char) :
    ∀ l ∈ splitLines s, '\n' ∉ l := by
  induction s with
  | nil =>
    intro l hl
    simp only [splitLines, splitOnChar, List.mem_singleton] at hl
    simp [hl]
  | cons c rest ih =>
    intro l hl
    simp only [splitLines, splitOnChar] at hl
    rcases hsp : splitOnChar '\n' rest with _ | ⟨l2, ls⟩
    · exact absurd hsp (splitOnChar_ne_nil '\n' rest)
    simp only [hsp] at hl
    by_cases hc : c = '\n'
    · rw [if_pos hc] at hl
      rcases List.mem_cons.mp hl with h1 | h1
      · simp [h1]
      · exact ih l (by rw [splitLines, hsp]; exact h1)
    · rw [if_neg hc] at hl
      rcases List.mem_cons.mp hl with h1 | h1
      · subst h1
        intro hmem
        rcases List.mem_cons.mp hmem with h2 | h2
        · exact hc h2.symm
        · exact ih l2 (by rw [splitLines, hsp]; exact List.mem_cons_self _ _) h2
      · exact ih l (by rw [splitLines, hsp]; exact List.mem_cons_of_mem _ h1)

theorem splitLines_single (l : List Char) (h : '\n' ∉ l) :
    splitLines l = [l] := by
  induction l with
  | nil => rfl
  | cons c rest ih =>
    have hc : ¬ c = '\n' := fun hcon => h (by simp [hcon])
    have hrest : splitLines rest = [rest] := ih fun hcon => h (by simp [hcon])
    show splitOnChar '\n' (c :: rest) = [c :: rest]
    rw [splitOnChar]
    simp only [splitLines] at hrest
    simp only [hrest]
    rw [if_neg hc]

theorem splitLines_append_newline (l s : List Char) (h : '\n' ∉ l) :
    splitLines (l ++ '\n' :: s) = l :: splitLines s := by
  induction l with
  | nil =>
    show splitOnChar '\n' ('\n' :: s) = [] :: splitLines s
    rw [splitOnChar]
    rcases hsp : splitOnChar '\n' s with _ | ⟨l2, ls⟩
    · exact absurd hsp (splitOnChar_ne_nil '\n' s)
    simp only [hsp]
    simp [splitLines, hsp]
  | cons c rest ih =>
    have hc : ¬ c = '\n' := fun hcon => h (by simp [hcon])
    have hrest := ih fun hcon => h (by simp [hcon])
    show splitOnChar '\n' (c :: (rest ++ '\n' :: s)) = (c :: rest) :: splitLines s
    rw [splitOnChar]
    simp only [splitLines] at hrest
    simp only [hrest]
    rw [if_neg hc]
    rfl

theorem splitLines_joinLines (ls : List (List Char))
    (h : ∀ l ∈ ls, '\n' ∉ l) (hne : ls ≠ []) :
    splitLines (joinLines ls) = ls := by
  induction ls with
  | nil => exact absurd rfl hne
  | cons l ls ih =>
    rcases ls with _ | ⟨l2, ls2⟩
    · exact splitLines_single l (h l (by simp))
    · rw [joinLines, splitLines_append_newline _ _ (h l (by simp))]
      rw [ih (fun l3 hl3 => h l3 (by simp [hl3])) (by simp)]

theorem STATUS_MARKERS_shape (st : TaskStatus) :
    ∃ m, STATUS_MARKERS st = ['[', m, ']'] ∧ (m = 'x' ∨ m = '~' ∨ m = ' ') ∧
      (STATUS_MAP [m]).getD .pending = st := by
  cases st
  · exact ⟨' ', rfl, by decide, by decide⟩
  · exact ⟨'~', rfl, by decide, by decide⟩
  · exact ⟨'x', rfl, by decide, by decide⟩

theorem matchStatusRegion_marker (m : Char) (rest : List Char)
    (hm : m = 'x' ∨ m = '~' ∨ m = ' ') :
    matchStatusRegion ('-' :: ' ' :: '[' :: m :: ']' :: rest) =
      some ([' '], [m], rest) := by
  rcases hm with rfl | rfl | rfl <;> rfl

theorem pushedTask_marker (S : PTState) (i : Nat) (m : Char)
    (rest : List Char) (hm : m = 'x' ∨ m = '~' ∨ m = ' ')
    (hcode : S.inCodeBlock = false) :
    pushedTask S i ('-' :: ' ' :: '[' :: m :: ']' :: rest) =
      some ⟨i, (STATUS_MAP [m]).getD .pending,
            jsTrim ((trimEnd rest).dropWhile isJsWhite),
            if S.currentSection = some headerTag ∨ S.currentSection = none
            then none else S.currentSection⟩ := by
  have hreg := matchStatusRegion_marker m rest hm
  have hjs := jsTrim_of_region _ _ _ _ hreg
  have hmc := matchCheckbox_of_region _ _ _ _ hreg
  rw [hjs] at hmc
  unfold pushedTask
  simp only []
  rw [hjs]
  have c1 : "```".toList.isPrefixOf
      ('-' :: ([' '] ++ '[' :: ([m] ++ ']' :: trimEnd rest))) = false := rfl
  have c3 : "# ".toList.isPrefixOf
      ('-' :: ([' '] ++ '[' :: ([m] ++ ']' :: trimEnd rest))) = false := rfl
  have c4 : "## ".toList.isPrefixOf
      ('-' :: ([' '] ++ '[' :: ([m] ++ ']' :: trimEnd rest))) = false := rfl
  have c5 : "- ".toList.isPrefixOf
      ('-' :: ([' '] ++ '[' :: ([m] ++ ']' :: trimEnd rest))) = true := rfl
  rw [if_neg (by simp [c1]), if_neg (by simp [hcode]), if_neg (by simp [c3]),
    if_neg (by simp [c4]), if_pos c5]
  simp only [hmc]

/-- C1 (amended): status round-trip with frame, for a recognized task
whose checkbox starts at the beginning of the raw line (the mutator's
regex is anchored at the raw line start, not the trimmed line, so an
indented task is silently left unchanged): updating the status rewrites
only the matched dash-whitespace-bracket-marker region of line L to a
dash, a space and the new marker, leaves every other line and every
character of line L after the close bracket byte-identical, and
re-parsing the written content yields a task at line L with the new
status and an unchanged description. -/
theorem status_roundtrip (content : List Char) (L : Nat) (S2 : TaskStatus)
    (t : Task) (oldLine w mk restRaw : List Char)
    (ht : t ∈ (parseTasks content).tasks) (hL : t.line = L)
    (hgetline : (parseTasks content).lines[L]? = some oldLine)
    (hraw : matchStatusRegion oldLine = some (w, mk, restRaw)) :
    ∃ newContent,
      updateTaskStatus content L S2 = some newContent ∧
      newContent = joinLines ((parseTasks content).lines.set L
        ("- ".toList ++ STATUS_MARKERS S2 ++ restRaw)) ∧
      (parseTasks newContent).lines =
        (parseTasks content).lines.set L
          ("- ".toList ++ STATUS_MARKERS S2 ++ restRaw) ∧
      (∀ j, j ≠ L → (parseTasks newContent).lines[j]? =
        (parseTasks content).lines[j]?) ∧
      ∃ t2, t2 ∈ (parseTasks newContent).tasks ∧ t2.line = L ∧
        t2.status = S2 ∧ t2.description = t.description := by
  have hlines : (parseTasks content).lines = splitLines content := rfl
  have holdget : (splitLines content)[L]? = some oldLine := by
    rw [← hlines]; exact hgetline
  have hlen : L < (splitLines content).length :=
    (List.getElem?_eq_some.mp holdget).1
  obtain ⟨m, hmark, hmcls, hmstat⟩ := STATUS_MARKERS_shape S2
  have hnl : "- ".toList ++ STATUS_MARKERS S2 ++ restRaw =
      '-' :: ' ' :: '[' :: m :: ']' :: restRaw := by
    rw [hmark]; rfl
  have hnew : replaceStatusMarker oldLine S2 =
      "- ".toList ++ STATUS_MARKERS S2 ++ restRaw := by
    unfold replaceStatusMarker
    simp only [hraw]
  have hupd : updateTaskStatus content L S2 =
      some (joinLines ((splitLines content).set L
        ("- ".toList ++ STATUS_MARKERS S2 ++ restRaw))) := by
    unfold updateTaskStatus
    simp only [hlines, holdget, hnew]
  have holdmem : oldLine ∈ splitLines content := List.getElem?_mem holdget
  have holdnonl : '\n' ∉ oldLine :=
    newline_not_mem_splitLines content oldLine holdmem
  obtain ⟨holdeq, hwws, hmkshape⟩ := matchStatusRegion_some oldLine w mk restRaw hraw
  have hnomem : ∀ l ∈ (splitLines content).set L
      ("- ".toList ++ STATUS_MARKERS S2 ++ restRaw), '\n' ∉ l := by
    intro l hlmem
    rcases List.mem_or_eq_of_mem_set hlmem with h1 | h1
    · exact newline_not_mem_splitLines content l h1
    · subst h1
      rw [hnl]
      intro hmem
      have hrest : '\n' ∈ restRaw := by
        rcases List.mem_cons.mp hmem with h2 | h2
        · cases h2
        rcases List.mem_cons.mp h2 with h3 | h3
        · cases h3
        rcases List.mem_cons.mp h3 with h4 | h4
        · cases h4
        rcases List.mem_cons.mp h4 with h5 | h5
        · rcases hmcls with rfl | rfl | rfl <;> cases h5
        rcases List.mem_cons.mp h5 with h6 | h6
        · cases h6
        exact h6
      apply holdnonl
      rw [holdeq]
      simp [hrest]
  have hsetne : (splitLines content).set L
      ("- ".toList ++ STATUS_MARKERS S2 ++ restRaw) ≠ [] := by
    intro hcon
    have hlencon := congrArg List.length hcon
    rw [List.length_set, List.length_nil] at hlencon
    omega
  have hsplit2 : splitLines (joinLines ((splitLines content).set L
      ("- ".toList ++ STATUS_MARKERS S2 ++ restRaw))) =
      (splitLines content).set L
        ("- ".toList ++ STATUS_MARKERS S2 ++ restRaw) :=
    splitLines_joinLines _ hnomem hsetne
  have hlines2 : (parseTasks (joinLines ((splitLines content).set L
      ("- ".toList ++ STATUS_MARKERS S2 ++ restRaw)))).lines =
      (splitLines content).set L
        ("- ".toList ++ STATUS_MARKERS S2 ++ restRaw) := hsplit2
  refine ⟨_, hupd, by rw [hlines], by rw [hlines]; exact hlines2, ?_, ?_⟩
  · intro j hj
    rw [hlines, hlines2]
    exact List.getElem?_set_ne fun hcon => hj (hcon.symm)
  -- the re-parsed task
  have hmem0 : t ∈ (parseLoop initState 0 (splitLines content)).tasks := ht
  rcases mem_parseLoop_tasks _ initState 0 t hmem0 with hin | ⟨k, hk, hp⟩
  · simp [initState] at hin
  have hkline := (pushedTask_some _ _ _ _ hp).1
  have hLk : L = k := by omega
  subst hLk
  have hgd : (splitLines content).getD L [] = oldLine := by
    rw [List.getD_eq_getElem?_getD, holdget]
    rfl
  rw [hgd] at hp
  obtain ⟨-, hcode, marker, restT, hmcOld, hstat, hdesc⟩ :=
    pushedTask_some _ _ _ _ hp
  have hmcReg := matchCheckbox_of_region oldLine w mk restRaw hraw
  rw [hmcOld] at hmcReg
  have hpair := Option.some.inj hmcReg
  have hmarker : marker = mk := congrArg Prod.fst hpair
  have hrestT : restT = trimEnd restRaw := congrArg Prod.snd hpair
  have hdecomp : (splitLines content).set L
      ("- ".toList ++ STATUS_MARKERS S2 ++ restRaw) =
      (splitLines content).take L ++
        ("- ".toList ++ STATUS_MARKERS S2 ++ restRaw) ::
          (splitLines content).drop (L + 1) :=
    List.set_eq_take_cons_drop _ hlen
  have hlt : (0 : Nat) + ((splitLines content).take L).length = L := by
    simp [List.length_take]
    omega
  have hparse2 : parseLoop initState 0 ((splitLines content).set L
      ("- ".toList ++ STATUS_MARKERS S2 ++ restRaw)) =
      parseLoop
        (parseStep (parseLoop initState 0 ((splitLines content).take L)) L
          ("- ".toList ++ STATUS_MARKERS S2 ++ restRaw))
        (L + 1) ((splitLines content).drop (L + 1)) := by
    rw [hdecomp, parseLoop_append, parseLoop, hlt]
  have hpush := pushedTask_marker
    (parseLoop initState 0 ((splitLines content).take L)) L m restRaw
    hmcls hcode
  rw [← hnl] at hpush
  refine ⟨⟨L, (STATUS_MAP [m]).getD .pending,
    jsTrim ((trimEnd restRaw).dropWhile isJsWhite),
    if (parseLoop initState 0 ((splitLines content).take L)).currentSection =
        some headerTag ∨
       (parseLoop initState 0 ((splitLines content).take L)).currentSection =
        none
    then none
    else (parseLoop initState 0 ((splitLines content).take L)).currentSection⟩,
    ?_, rfl, hmstat, ?_⟩
  · show _ ∈ (parseTasks (joinLines ((splitLines content).set L
      ("- ".toList ++ STATUS_MARKERS S2 ++ restRaw)))).tasks
    have htasks2 : (parseTasks (joinLines ((splitLines content).set L
        ("- ".toList ++ STATUS_MARKERS S2 ++ restRaw)))).tasks =
        (parseLoop initState 0 ((splitLines content).set L
          ("- ".toList ++ STATUS_MARKERS S2 ++ restRaw))).tasks := by
      show (parseLoop initState 0 (splitLines (joinLines _))).tasks = _
      rw [hsplit2]
    rw [htasks2, hparse2]
    obtain ⟨suf, hsuf⟩ := parseLoop_tasks_extend
      ((splitLines content).drop (L + 1))
      (parseStep (parseLoop initState 0 ((splitLines content).take L)) L
        ("- ".toList ++ STATUS_MARKERS S2 ++ restRaw)) (L + 1)
    rw [hsuf, parseStep_tasks, hpush]
    simp
  · show jsTrim ((trimEnd restRaw).dropWhile isJsWhite) = t.description
    rw [hdesc, hrestT]

/-- C1 counterexample: an indented checkbox line is a recognized task,
but the mutator regex (anchored at the raw line start) does not match,
so the file is written back unchanged and re-parsing still shows the
old status. -/
theorem roundtrip_counterexample :
    (parseTasks " - [ ] a".toList).tasks =
      [⟨0, .pending, "a".toList, none⟩] ∧
    updateTaskStatus " - [ ] a".toList 0 .completed =
      some " - [ ] a".toList ∧
    (parseTasks " - [ ] a".toList).tasks.map Task.status = [.pending] := by
  decide

theorem status_roundtrip_witness :
    ∃ newContent,
      updateTaskStatus "- [ ] alpha".toList 0 .completed = some newContent ∧
      newContent = joinLines ((parseTasks "- [ ] alpha".toList).lines.set 0
        ("- ".toList ++ STATUS_MARKERS .completed ++ " alpha".toList)) ∧
      (parseTasks newContent).lines =
        (parseTasks "- [ ] alpha".toList).lines.set 0
          ("- ".toList ++ STATUS_MARKERS .completed ++ " alpha".toList) ∧
      (∀ j, j ≠ 0 → (parseTasks newContent).lines[j]? =
        (parseTasks "- [ ] alpha".toList).lines[j]?) ∧
      ∃ t2, t2 ∈ (parseTasks newContent).tasks ∧ t2.line = 0 ∧
        t2.status = .completed ∧
        t2.description =
          (⟨0, .pending, "alpha".toList, none⟩ : Task).description :=
  status_roundtrip "- [ ] alpha".toList 0 .completed
    ⟨0, .pending, "alpha".toList, none⟩ "- [ ] alpha".toList
    [' '] [' '] " alpha".toList (by decide) rfl (by decide) (by decide)

/-- State of the notes-collection reference machine (spec side). -/
structure NotesState where
  curIsHeader : Bool
  inTasks : Bool
  foundFirst : Bool
  inCodeBlock : Bool
  collected : List (Nat × List Char)
deriving DecidableEq, Repr

/-- Spec-side collector, following the amended claim's wording: gather,
with their indices, the non-empty lines that do not start with a hash
in column 0 and whose trimmed form does not start with a dash,
occurring inside a section named `tasks` (while the header
pseudo-section is not active), before that section's first checkbox
line and outside code fences. -/
def notesSpecStep (ns : NotesState) (i : Nat) (line : List Char) :
    NotesState :=
  let trimmed := jsTrim line
  if "```".toList.isPrefixOf trimmed then
    { ns with inCodeBlock := !ns.inCodeBlock }
  else if ns.inCodeBlock then ns
  else if "# ".toList.isPrefixOf trimmed then
    { ns with curIsHeader := true }
  else if "## ".toList.isPrefixOf trimmed then
    let sec := ((trimmed.drop 2).dropWhile isJsWhite).map Char.toLower
    { ns with curIsHeader := decide (sec = headerTag),
              inTasks := decide (sec = tasksTag),
              foundFirst := false }
  else if "- ".toList.isPrefixOf trimmed then
    match matchCheckbox trimmed with
    | some _ => { ns with foundFirst := true }
    | none => ns
  else if ns.curIsHeader = true ∧ line ≠ [] ∧
      ¬ ['#'].isPrefixOf line ∧ ¬ ['-'].isPrefixOf trimmed then ns
  else if ns.inTasks = true ∧ ¬ ns.foundFirst = true ∧ line ≠ [] ∧
      ¬ ['#'].isPrefixOf line ∧ ¬ ['-'].isPrefixOf trimmed then
    { ns with collected := ns.collected ++ [(i, line)] }
  else ns

/-- Loop of the spec-side collector. -/
def notesSpecLoop (ns : NotesState) (i : Nat) :
    List (List Char) → NotesState
  | [] => ns
  | l :: ls => notesSpecLoop (notesSpecStep ns i l) (i + 1) ls

/-- The indexed note lines of a document according to the spec-side
collector. -/
def notesIdx (content : List Char) : List (Nat × List Char) :=
  (notesSpecLoop ⟨false, false, false, false, []⟩ 0
    (splitLines content)).collected

theorem joinLines_concat (xs : List (List Char)) (l : List Char) :
    joinLines (xs ++ [l]) =
      if xs = [] then l else joinLines xs ++ '\n' :: l := by
  induction xs with
  | nil => rfl
  | cons x xs ih =>
    cases xs with
    | nil => rfl
    | cons y ys =>
      show joinLines (x :: y :: (ys ++ [l])) =
        if x :: y :: ys = [] then l
        else joinLines (x :: y :: ys) ++ '\n' :: l
      rw [show joinLines (x :: y :: (ys ++ [l])) =
        x ++ '\n' :: joinLines (y :: (ys ++ [l])) from rfl]
      rw [show (y :: ys) ++ [l] = y :: (ys ++ [l]) from rfl] at ih
      rw [ih]
      simp [joinLines]

theorem joinLines_ne_nil_of (xs : List (List Char)) (hne : xs ≠ [])
    (h : ∀ l ∈ xs, l ≠ []) : joinLines xs ≠ [] := by
  cases xs with
  | nil => exact absurd rfl hne
  | cons x xs =>
    cases xs with
    | nil => exact h x (by simp)
    | cons y ys =>
      rw [joinLines]
      simp

/-- The correspondence invariant between the parser state and the
spec-side notes machine: the section flags agree, the notes field is
the newline-join of the collected lines, collected lines are non-empty
with indices below the cursor, task line indices are below the cursor,
and task lines never coincide with collected indices. -/
def NotesInv (st : PTState) (ns : NotesState) (i : Nat) : Prop :=
  st.inTasks = ns.inTasks ∧
  st.foundFirstTaskInSection = ns.foundFirst ∧
  st.inCodeBlock = ns.inCodeBlock ∧
  ((st.currentSection = some headerTag) ↔ ns.curIsHeader = true) ∧
  st.notes = joinLines (ns.collected.map Prod.snd) ∧
  (∀ p ∈ ns.collected, p.2 ≠ [] ∧ p.1 < i) ∧
  (∀ t ∈ st.tasks, t.line < i) ∧
  (∀ t ∈ st.tasks, ∀ p ∈ ns.collected, t.line ≠ p.1)

theorem NotesInv.mono (st : PTState) (ns : NotesState) (i : Nat)
    (h : NotesInv st ns i) : NotesInv st ns (i + 1) := by
  obtain ⟨h1, h2, h3, h4, h5, h6, h7, h8⟩ := h
  exact ⟨h1, h2, h3, h4, h5,
    fun p hp => ⟨(h6 p hp).1, Nat.lt_succ_of_lt (h6 p hp).2⟩,
    fun t ht => Nat.lt_succ_of_lt (h7 t ht), h8⟩

theorem notesInv_step (st : PTState) (ns : NotesState) (i : Nat)
    (l : List Char) (hinv : NotesInv st ns i) :
    NotesInv (parseStep st i l) (notesSpecStep ns i l) (i + 1) := by
  obtain ⟨h1, h2, h3, h4, h5, h6, h7, h8⟩ := hinv
  unfold parseStep notesSpecStep
  simp only []
  by_cases b1 : "```".toList.isPrefixOf (jsTrim l) = true
  · simp only [if_pos b1]
    exact NotesInv.mono _ _ _ ⟨h1, h2, by rw [h3], h4, h5, h6, h7, h8⟩
  simp only [if_neg b1]
  by_cases b2 : st.inCodeBlock = true
  · have b2s : ns.inCodeBlock = true := h3.symm.trans b2
    simp only [if_pos b2, if_pos b2s]
    exact NotesInv.mono _ _ _ ⟨h1, h2, h3, h4, h5, h6, h7, h8⟩
  have b2s : ¬ ns.inCodeBlock = true := fun hc => b2 (h3.trans hc)
  simp only [if_neg b2, if_neg b2s]
  by_cases b3 : "# ".toList.isPrefixOf (jsTrim l) = true
  · simp only [if_pos b3]
    exact NotesInv.mono _ _ _ ⟨h1, h2, h3, by simp, h5, h6, h7, h8⟩
  simp only [if_neg b3]
  by_cases b4 : "## ".toList.isPrefixOf (jsTrim l) = true
  · simp only [if_pos b4]
    refine NotesInv.mono _ _ _ ⟨rfl, rfl, h3, ?_, h5, h6, h7, h8⟩
    simp
  simp only [if_neg b4]
  by_cases b5 : "- ".toList.isPrefixOf (jsTrim l) = true
  · simp only [if_pos b5]
    rcases hm : matchCheckbox (jsTrim l) with _ | ⟨marker, rest⟩ <;>
      simp only [hm]
    · exact NotesInv.mono _ _ _ ⟨h1, h2, h3, h4, h5, h6, h7, h8⟩
    · refine ⟨h1, rfl, h3, h4, h5,
        fun p hp => ⟨(h6 p hp).1, Nat.lt_succ_of_lt (h6 p hp).2⟩,
        ?_, ?_⟩
      · intro t htt
        rcases List.mem_append.mp htt with hold | hnew
        · exact Nat.lt_succ_of_lt (h7 t hold)
        · simp at hnew
          rw [hnew]
          show i < i + 1
          omega
      · intro t htt p hp
        rcases List.mem_append.mp htt with hold | hnew
        · exact h8 t hold p hp
        · simp at hnew
          rw [hnew]
          show i ≠ p.1
          have := (h6 p hp).2
          omega
  simp only [if_neg b5]
  by_cases b6 : st.currentSection = some headerTag ∧ l ≠ [] ∧
      ¬ ['#'].isPrefixOf l = true ∧ ¬ ['-'].isPrefixOf (jsTrim l) = true
  · have b6s : ns.curIsHeader = true ∧ l ≠ [] ∧
        ¬ ['#'].isPrefixOf l = true ∧ ¬ ['-'].isPrefixOf (jsTrim l) = true :=
      ⟨h4.mp b6.1, b6.2⟩
    simp only [if_pos b6, if_pos b6s]
    exact NotesInv.mono _ _ _ ⟨h1, h2, h3, h4, h5, h6, h7, h8⟩
  have b6s : ¬ (ns.curIsHeader = true ∧ l ≠ [] ∧
      ¬ ['#'].isPrefixOf l = true ∧ ¬ ['-'].isPrefixOf (jsTrim l) = true) :=
    fun hc => b6 ⟨h4.mpr hc.1, hc.2⟩
  simp only [if_neg b6, if_neg b6s]
  by_cases b7 : st.inTasks = true ∧ ¬ st.foundFirstTaskInSection = true ∧
      l ≠ [] ∧ ¬ ['#'].isPrefixOf l = true ∧
      ¬ ['-'].isPrefixOf (jsTrim l) = true
  · have b7s : ns.inTasks = true ∧ ¬ ns.foundFirst = true ∧
        l ≠ [] ∧ ¬ ['#'].isPrefixOf l = true ∧
        ¬ ['-'].isPrefixOf (jsTrim l) = true :=
      ⟨h1.symm.trans b7.1, fun hc => b7.2.1 (h2.trans hc), b7.2.2⟩
    simp only [if_pos b7, if_pos b7s]
    refine ⟨h1, h2, h3, h4, ?_, ?_,
      fun t htt => Nat.lt_succ_of_lt (h7 t htt), ?_⟩
    · show (st.notes ++ (if st.notes = [] then [] else ['\n'])) ++ l =
        joinLines ((ns.collected ++ [(i, l)]).map Prod.snd)
      rw [List.map_append,
        show (List.map Prod.snd [(i, l)]) = [l] from rfl, joinLines_concat]
      by_cases hcol : ns.collected = []
      · rw [hcol] at h5
        simp only [hcol]
        rw [h5]
        simp [joinLines]
      · have hmap : ns.collected.map Prod.snd ≠ [] := by
          simpa using hcol
        have hnotes : ¬ st.notes = [] := by
          rw [h5]
          exact joinLines_ne_nil_of _ hmap
            (fun l2 hl2 => by
              rcases List.mem_map.mp hl2 with ⟨p, hp, rfl⟩
              exact (h6 p hp).1)
        rw [if_neg hmap, if_neg hnotes, h5]
        simp
    · intro p hp
      rcases List.mem_append.mp hp with hold | hnew
      · exact ⟨(h6 p hold).1, Nat.lt_succ_of_lt (h6 p hold).2⟩
      · simp at hnew
        rw [hnew]
        exact ⟨b7.2.2.1, Nat.lt_succ_self i⟩
    · intro t htt p hp
      rcases List.mem_append.mp hp with hold | hnew
      · exact h8 t htt p hold
      · simp at hnew
        rw [hnew]
        have := h7 t htt
        omega
  have b7s : ¬ (ns.inTasks = true ∧ ¬ ns.foundFirst = true ∧
      l ≠ [] ∧ ¬ ['#'].isPrefixOf l = true ∧
      ¬ ['-'].isPrefixOf (jsTrim l) = true) :=
    fun hc => b7 ⟨h1.trans hc.1, fun hc2 => hc.2.1 (h2.symm.trans hc2), hc.2.2⟩
  simp only [if_neg b7, if_neg b7s]
  exact NotesInv.mono _ _ _ ⟨h1, h2, h3, h4, h5, h6, h7, h8⟩

theorem notesInv_loop (ls : List (List Char)) :
    ∀ (st : PTState) (ns : NotesState) (i : Nat),
    NotesInv st ns i →
    NotesInv (parseLoop st i ls) (notesSpecLoop ns i ls) (i + ls.length) := by
  induction ls with
  | nil => intro st ns i h; simpa using h
  | cons l ls ih =>
    intro st ns i h
    have hstep := ih (parseStep st i l) (notesSpecStep ns i l) (i + 1)
      (notesInv_step st ns i l h)
    rw [parseLoop, notesSpecLoop]
    rw [show i + (l :: ls).length = i + 1 + ls.length by simp; omega]
    exact hstep

/-- C8 (amended): the notes field is exactly the newline-join, in
source order, of the non-empty lines that do not start with a raw hash
and whose trimmed form does not start with a dash, lying inside a
`tasks` section before that section's first checkbox line (outside
code fences, and not while the header pseudo-section is active); and
no such line index coincides with any recognized task's line, so no
note line contributes to any task description (each description is
derived from its own checkbox line only). -/
theorem notes_capture (content : List Char) :
    (parseTasks content).notes =
      joinLines ((notesIdx content).map Prod.snd) ∧
    ∀ p ∈ notesIdx content, ∀ t ∈ (parseTasks content).tasks,
      t.line ≠ p.1 := by
  have h0 : NotesInv initState ⟨false, false, false, false, []⟩ 0 := by
    refine ⟨rfl, rfl, rfl, by simp [initState], rfl, by simp, ?_, ?_⟩
    · intro t htt
      simp [initState] at htt
    · intro t htt
      simp [initState] at htt
  have hfin := notesInv_loop (splitLines content) initState
    ⟨false, false, false, false, []⟩ 0 h0
  refine ⟨hfin.2.2.2.2.1, ?_⟩
  intro p hp t htt
  exact hfin.2.2.2.2.2.2.2 t htt p hp

/-- C8 counterexample: a line such as `-note` under a `## Tasks`
heading and before its first checkbox is non-empty, is no heading and
is no checkbox task, yet it is not captured into notes (the source
excludes every line whose trimmed form starts with a dash, checkbox or
not). -/
theorem notes_counterexample :
    ("-note".toList ≠ [] ∧
     matchCheckbox (jsTrim "-note".toList) = none ∧
     ¬ "# ".toList.isPrefixOf (jsTrim "-note".toList) = true ∧
     ¬ "## ".toList.isPrefixOf (jsTrim "-note".toList) = true) ∧
    (parseTasks "## Tasks\n-note\n- [ ] a".toList).notes = [] := by decide

theorem notes_capture_witness :
    (parseTasks "## Tasks\nnote1\n- [ ] a".toList).notes =
      joinLines ((notesIdx "## Tasks\nnote1\n- [ ] a".toList).map Prod.snd) ∧
    (⟨2, .pending, "a".toList, some tasksTag⟩ : Task).line ≠
      ((1, "note1".toList) : Nat × List Char).1 :=
  ⟨(notes_capture "## Tasks\nnote1\n- [ ] a".toList).1,
   (notes_capture "## Tasks\nnote1\n- [ ] a".toList).2 (1, "note1".toList)
     (by decide) ⟨2, .pending, "a".toList, some tasksTag⟩ (by decide)⟩

end Tasq
